import Mathlib

/-
Verification of the URL-component core: path normalization, percent
encoding, path validation, quote stripping, and the immutable ordered
query-parameter multimap.

Rust strings are modelled as lists of their bytes (List Nat, each entry a
byte value).  All splitting, joining and comparison in the source happens
on single ASCII bytes, so byte lists are an exact model of the observable
behaviour of the source functions.
-/

namespace Httpx

/-- Splitting a byte string on a separator byte, as the Rust str split
method with a single character pattern: the pieces between occurrences of
the separator, in order, always at least one piece, pieces may be empty. -/
def splitOnSep (sep : Nat) : List Nat → List (List Nat)
  | [] => [[]]
  | c :: rest =>
    if c = sep then [] :: splitOnSep sep rest
    else
      match splitOnSep sep rest with
      | [] => [[c]]
      | h :: t => (c :: h) :: t

/-- Joining byte strings with a separator byte, as the Rust join method on
a slice of strings. -/
def joinSep (sep : Nat) : List (List Nat) → List Nat
  | [] => []
  | [x] => x
  | x :: y :: t => x ++ sep :: joinSep sep (y :: t)

/-- One step of the component loop of normalize_path in src/urlparse.rs:
a dot component is dropped, a dot-dot component pops the last retained
component unless the retained list is empty or is a single empty
component, and every other component is pushed. -/
def normStep (acc : List (List Nat)) (component : List Nat) : List (List Nat) :=
  if component = [46] then acc
  else if component = [46, 46] then
    if acc ≠ [] ∧ acc ≠ [[]] then acc.dropLast else acc
  else acc ++ [component]

/-- normalize_path from src/urlparse.rs: if the path has no dot byte it is
returned unchanged, otherwise it is split on the slash byte, the dot and
dot-dot components are resolved by normStep, and the retained components
are joined back with slashes. -/
def normalize_path (path : List Nat) : List Nat :=
  if 46 ∈ path then joinSep 47 ((splitOnSep 47 path).foldl normStep [])
  else path

/-- The UNRESERVED_CHARS constant of src/urlparse.rs, the bytes of the
ASCII uppercase letters, lowercase letters, digits, hyphen, dot,
underscore and tilde, in the order of the source constant. -/
def UNRESERVED_CHARS : List Nat :=
  [65, 66, 67, 68, 69, 70, 71, 72, 73, 74, 75, 76, 77, 78, 79, 80, 81, 82,
   83, 84, 85, 86, 87, 88, 89, 90,
   97, 98, 99, 100, 101, 102, 103, 104, 105, 106, 107, 108, 109, 110, 111,
   112, 113, 114, 115, 116, 117, 118, 119, 120, 121, 122,
   48, 49, 50, 51, 52, 53, 54, 55, 56, 57, 45, 46, 95, 126]

/-- Uppercase hexadecimal digit byte for a value below sixteen, as used by
the percent formatting in the source. -/
def hexUpDigit (n : Nat) : Nat := if n < 10 then 48 + n else 55 + n

/-- Encoding of one byte by percent_encoded in src/urlparse.rs: unreserved
bytes and bytes of the safe set are kept, anything else becomes a percent
byte followed by two uppercase hexadecimal digit bytes. -/
def pctByte (safe : List Nat) (b : Nat) : List Nat :=
  if b ∈ UNRESERVED_CHARS ∨ b ∈ safe then [b]
  else [37, hexUpDigit (b / 16), hexUpDigit (b % 16)]

/-- percent_encoded from src/urlparse.rs: byte by byte encoding. -/
def percent_encoded (safe : List Nat) (s : List Nat) : List Nat :=
  (s.map (pctByte safe)).flatten

/-- Test for an ASCII hexadecimal digit byte, as the Rust method used by
is_percent_encoded in src/urlparse.rs. -/
def isHexDigitByte (b : Nat) : Prop :=
  (48 ≤ b ∧ b ≤ 57) ∨ (65 ≤ b ∧ b ≤ 70) ∨ (97 ≤ b ∧ b ≤ 102)

instance (b : Nat) : Decidable (isHexDigitByte b) := by
  unfold isHexDigitByte; infer_instance

/-- is_percent_encoded from src/urlparse.rs: exactly three bytes, a
percent byte followed by two hexadecimal digit bytes. -/
def is_percent_encoded (s : List Nat) : Prop :=
  s.length = 3 ∧ s.take 1 = [37] ∧
    (s.drop 1).take 1 ≠ [] ∧ (∀ b ∈ (s.drop 1).take 1, isHexDigitByte b) ∧
    (∀ b ∈ (s.drop 2).take 1, isHexDigitByte b)

/-- quote from src/urlparse.rs.  The source scans the input left to right
with two indices, copying every valid percent triplet verbatim and passing
each maximal byte run between triplets to percent_encoded; because
percent_encoded works byte by byte, emitting the encoding of each run byte
at the moment the scanner steps over it produces the same output, which is
what this structural recursion does. -/
def quote (safe : List Nat) : List Nat → List Nat
  | [] => []
  | [c] => pctByte safe c
  | [c, d] => pctByte safe c ++ quote safe [d]
  | c :: a :: b :: rest =>
    if c = 37 ∧ isHexDigitByte a ∧ isHexDigitByte b then
      37 :: a :: b :: quote safe rest
    else pctByte safe c ++ quote safe (a :: b :: rest)

/-- A byte string holds a stray percent byte: one that is not followed
immediately by two hexadecimal digit bytes. -/
def strayPercent (s : List Nat) : Prop :=
  ∃ pre suf, s = pre ++ 37 :: suf ∧
    ¬ ∃ a b r, suf = a :: b :: r ∧ isHexDigitByte a ∧ isHexDigitByte b

/-- Prefix test on byte strings, as the Rust starts_with method. -/
def startsWithBytes (l pre : List Nat) : Prop := l.take pre.length = pre

instance (l pre : List Nat) : Decidable (startsWithBytes l pre) := by
  unfold startsWithBytes; infer_instance

/-- validate_path from src/urlparse.rs, with the error path of the source
modelled by the Except error constructor carrying the message. -/
def validate_path (path : List Nat) (has_scheme has_authority : Bool) :
    Except String Unit :=
  if has_authority = true ∧ path ≠ [] ∧ ¬ startsWithBytes path [47] then
    .error "For absolute URLs, path must be empty or begin with \x27/\x27"
  else if has_scheme = false ∧ has_authority = false ∧ startsWithBytes path [47, 47] then
    .error "Relative URLs cannot have a path starting with \x27//\x27"
  else if has_scheme = false ∧ has_authority = false ∧ startsWithBytes path [58] then
    .error "Relative URLs cannot have a path starting with \x27:\x27"
  else .ok ()

/-- Byte range slicing as in Rust: the slice from index a up to b, or
failure when the range is invalid for the string; an invalid range panics
in the source, which is modelled by none. -/
def byteSlice (l : List Nat) (a b : Nat) : Option (List Nat) :=
  if a ≤ b ∧ b ≤ l.length then some ((l.drop a).take (b - a)) else none

/-- unquote from src/models/utils.rs: when the value starts and ends with
a double quote byte, or starts and ends with a single quote byte, it is
sliced from index one to length minus one, otherwise returned unchanged.
The slice panics in the source when the range is invalid, modelled here by
none. -/
def unquote (value : List Nat) : Option (List Nat) :=
  if value.head? = some 34 ∧ value.getLast? = some 34 then
    byteSlice value 1 (value.length - 1)
  else if value.head? = some 39 ∧ value.getLast? = some 39 then
    byteSlice value 1 (value.length - 1)
  else some value

/-- Web form encoding of one byte by urlencode in src/urls.rs: ASCII
letters, digits, hyphen, underscore, dot and tilde are kept, the space
byte becomes a plus byte, anything else becomes a percent byte followed by
two uppercase hexadecimal digit bytes. -/
def urlencodeByte (b : Nat) : List Nat :=
  if (65 ≤ b ∧ b ≤ 90) ∨ (97 ≤ b ∧ b ≤ 122) ∨ (48 ≤ b ∧ b ≤ 57) ∨
      b = 45 ∨ b = 95 ∨ b = 46 ∨ b = 126 then [b]
  else if b = 32 then [43]
  else [37, hexUpDigit (b / 16), hexUpDigit (b % 16)]

/-- urlencode from src/urls.rs: byte by byte web form encoding. -/
def urlencode (s : List Nat) : List Nat := (s.map urlencodeByte).flatten

/-- A byte the web form encoder keeps unchanged: the literal branch of
urlencodeByte. -/
def formSafeByte (b : Nat) : Prop :=
  (65 ≤ b ∧ b ≤ 90) ∨ (97 ≤ b ∧ b ≤ 122) ∨ (48 ≤ b ∧ b ≤ 57) ∨
    b = 45 ∨ b = 95 ∨ b = 46 ∨ b = 126

instance (b : Nat) : Decidable (formSafeByte b) := by
  unfold formSafeByte; infer_instance

/-- The QueryParams value of src/urls.rs: an insertion ordered map from a
key to its list of values, modelled as the list of map entries in order. -/
structure QueryParams where
  params : List (List Nat × List (List Nat))
deriving DecidableEq

/-- QueryParams construction with no arguments: the empty map. -/
def emptyParams : QueryParams := ⟨[]⟩

/-- The entry-or-default-push pattern of src/urls.rs on an IndexMap:
append the value to the list of an existing entry for the key, or append
a fresh entry for the key at the end. -/
def entryPush : List (List Nat × List (List Nat)) → List Nat → List Nat →
    List (List Nat × List (List Nat))
  | [], k, v => [(k, [v])]
  | (k0, vs) :: t, k, v =>
    if k0 = k then (k0, vs ++ [v]) :: t else (k0, vs) :: entryPush t k v

/-- IndexMap insert: replace the value of an existing entry for the key in
place, or append a fresh entry at the end. -/
def mapInsert : List (List Nat × List (List Nat)) → List Nat → List (List Nat) →
    List (List Nat × List (List Nat))
  | [], k, v => [(k, v)]
  | (k0, vs) :: t, k, v =>
    if k0 = k then (k0, v) :: t else (k0, vs) :: mapInsert t k v

/-- First entry lookup in the entry list, as IndexMap get. -/
def lookupEntry : List (List Nat × List (List Nat)) → List Nat →
    Option (List (List Nat))
  | [], _ => none
  | (k0, vs) :: t, k => if k0 = k then some vs else lookupEntry t k

/-- QueryParams construction from a sequence of key value pairs, the list
branch of from_pyany in src/urls.rs: each pair is pushed to the entry of
its key in encounter order. -/
def fromPairs (ps : List (List Nat × List Nat)) : QueryParams :=
  ⟨ps.foldl (fun m kv => entryPush m kv.1 kv.2) []⟩

/-- from_str of QueryParams in src/urls.rs: an empty input gives the empty
map; otherwise the input is split on the ampersand byte, each piece is
split on the equals byte, a piece with exactly two parts pushes key and
value, a piece with exactly one part pushes the key with an empty value,
and every other piece is skipped by the wildcard arm of the source. -/
def from_str (s : List Nat) : QueryParams :=
  if s = [] then ⟨[]⟩
  else
    ⟨(splitOnSep 38 s).foldl (fun m piece =>
      match splitOnSep 61 piece with
      | [k, v] => entryPush m k v
      | [k] => entryPush m k []
      | _ => m) []⟩

/-- The primitive query values accepted by primitive_value_to_str in
src/urls.rs: a boolean, the none value, or a string. -/
inductive PyPrim where
  | boolVal (b : Bool)
  | noneVal
  | strVal (s : List Nat)
deriving DecidableEq

/-- primitive_value_to_str from src/urls.rs: a boolean renders as the
bytes of true or false, none renders empty, a string renders as itself. -/
def primitive_value_to_str : PyPrim → List Nat
  | .boolVal true => [116, 114, 117, 101]
  | .boolVal false => [102, 97, 108, 115, 101]
  | .noneVal => []
  | .strVal s => s

/-- A value bound to a key in a mapping source for QueryParams: either a
sequence of primitives or a single primitive. -/
inductive PyDictValue where
  | seqVal (l : List PyPrim)
  | primVal (p : PyPrim)
deriving DecidableEq

/-- from_pydict of QueryParams in src/urls.rs: for each entry of the
mapping in order, a sequence value is inserted whole as the value list of
its key, including an empty sequence as an empty list, and a primitive
value is coerced and pushed to the entry of its key. -/
def from_pydict (d : List (List Nat × PyDictValue)) : QueryParams :=
  ⟨d.foldl (fun m kv =>
    match kv.2 with
    | .seqVal l => mapInsert m kv.1 (l.map primitive_value_to_str)
    | .primVal p => entryPush m kv.1 (primitive_value_to_str p)) []⟩

/-- Flattened key value pairs of an entry list, in entry order and value
list order. -/
def flatItems (m : List (List Nat × List (List Nat))) : List (List Nat × List Nat) :=
  (m.map (fun kv => kv.2.map (fun v => (kv.1, v)))).flatten

/-- multi_items of QueryParams in src/urls.rs. -/
def QueryParams.multi_items (q : QueryParams) : List (List Nat × List Nat) :=
  flatItems q.params

/-- keys of QueryParams in src/urls.rs. -/
def QueryParams.keys (q : QueryParams) : List (List Nat) := q.params.map Prod.fst

/-- values of QueryParams in src/urls.rs: the first value of every entry
that has one. -/
def QueryParams.values (q : QueryParams) : List (List Nat) :=
  q.params.filterMap (fun kv => kv.2.head?)

/-- items of QueryParams in src/urls.rs: the key paired with the first
value, for every entry whose value list is not empty. -/
def QueryParams.items (q : QueryParams) : List (List Nat × List Nat) :=
  q.params.filterMap (fun kv => kv.2.head?.map (fun v => (kv.1, v)))

/-- get_list of QueryParams in src/urls.rs. -/
def QueryParams.get_list (q : QueryParams) (k : List Nat) : List (List Nat) :=
  (lookupEntry q.params k).getD []

/-- The membership test of QueryParams in src/urls.rs. -/
def QueryParams.hasKey (q : QueryParams) (k : List Nat) : Bool :=
  (lookupEntry q.params k).isSome

/-- The length of QueryParams in src/urls.rs: the number of distinct
keys. -/
def QueryParams.length (q : QueryParams) : Nat := q.params.length

/-- merge of QueryParams in src/urls.rs: the receiver entry list is cloned
and extended by inserting every entry of the other map in order, which
replaces the value list of an existing key in place and appends a new key
at the end. -/
def QueryParams.merge (q other : QueryParams) : QueryParams :=
  ⟨other.params.foldl (fun m kv => mapInsert m kv.1 kv.2) q.params⟩

/-- The string rendering of QueryParams in src/urls.rs: every flattened
pair is rendered as the web form encoded key, an equals byte and the web
form encoded value, and the pairs are joined with ampersand bytes. -/
def QueryParams.render (q : QueryParams) : List Nat :=
  joinSep 38 (q.multi_items.map (fun kv => urlencode kv.1 ++ 61 :: urlencode kv.2))

/-- Byte wise lexicographic comparison of byte strings, as the Rust
ordering on String values. -/
def listLeB : List Nat → List Nat → Bool
  | [], _ => true
  | _ :: _, [] => false
  | x :: xs, y :: ys => if x < y then true else if y < x then false else listLeB xs ys

/-- Lexicographic comparison of key value pairs, as the derived Rust
ordering on pairs of String values. -/
def pairLeB (p q : List Nat × List Nat) : Bool :=
  if p.1 = q.1 then listLeB p.2 q.2 else listLeB p.1 q.1

/-- The pair ordering as a relation, for the sort. -/
def PairLe (p q : List Nat × List Nat) : Prop := pairLeB p q = true

instance : DecidableRel PairLe := by
  unfold PairLe; infer_instance

/-- The canonical ascending ordering of a flattened pair list, as produced
by the Rust sort call inside the equality test. -/
def sortPairs (l : List (List Nat × List Nat)) : List (List Nat × List Nat) :=
  List.insertionSort PairLe l

/-- The equality test of QueryParams in src/urls.rs: both flattened pair
lists are sorted and compared. -/
def QueryParams.eq (a b : QueryParams) : Bool :=
  decide (sortPairs a.multi_items = sortPairs b.multi_items)

end Httpx

namespace Httpx

theorem splitOnSep_ne_nil (sep : Nat) (l : List Nat) : splitOnSep sep l ≠ [] := by
  cases l with
  | nil => simp [splitOnSep]
  | cons c rest =>
    unfold splitOnSep
    split
    · simp
    · split <;> simp

theorem mem_splitOnSep (sep : Nat) : ∀ (l : List Nat), ∀ x ∈ splitOnSep sep l, sep ∉ x := by
  intro l
  induction l with
  | nil =>
    intro x hx
    simp [splitOnSep] at hx
    simp [hx]
  | cons c rest ih =>
    intro x hx
    unfold splitOnSep at hx
    by_cases h : c = sep
    · rw [if_pos h] at hx
      rcases List.mem_cons.mp hx with h1 | h1
      · simp [h1]
      · exact ih x h1
    · rw [if_neg h] at hx
      rcases hs : splitOnSep sep rest with _ | ⟨p, t⟩
      · exact absurd hs (splitOnSep_ne_nil sep rest)
      · rw [hs] at hx
        rcases List.mem_cons.mp hx with h1 | h1
        · subst h1
          intro hmem
          rcases List.mem_cons.mp hmem with h2 | h2
          · exact h h2.symm
          · exact ih p (by rw [hs]; exact List.mem_cons_self p t) h2
        · exact ih x (by rw [hs]; exact List.mem_cons.mpr (Or.inr h1))

theorem splitOnSep_of_not_mem (sep : Nat) : ∀ (x : List Nat), sep ∉ x → splitOnSep sep x = [x] := by
  intro x
  induction x with
  | nil => intro _; rfl
  | cons c rest ih =>
    intro h
    have hc : c ≠ sep := fun hh => h (by simp [hh])
    have hr : sep ∉ rest := fun hh => h (List.mem_cons.mpr (Or.inr hh))
    unfold splitOnSep
    rw [if_neg hc, ih hr]

theorem splitOnSep_cons_ne (sep c : Nat) (rest p : List Nat) (t : List (List Nat))
    (h : c ≠ sep) (hs : splitOnSep sep rest = p :: t) :
    splitOnSep sep (c :: rest) = (c :: p) :: t := by
  unfold splitOnSep
  rw [if_neg h, hs]

theorem splitOnSep_append (sep : Nat) : ∀ (x r : List Nat), sep ∉ x →
    splitOnSep sep (x ++ sep :: r) = x :: splitOnSep sep r := by
  intro x
  induction x with
  | nil => intro r _; simp [splitOnSep]
  | cons c rest ih =>
    intro r h
    have hc : c ≠ sep := fun hh => h (by simp [hh])
    have hr : sep ∉ rest := fun hh => h (List.mem_cons.mpr (Or.inr hh))
    show splitOnSep sep (c :: (rest ++ sep :: r)) = (c :: rest) :: splitOnSep sep r
    exact splitOnSep_cons_ne sep c _ rest (splitOnSep sep r) hc (ih r hr)

theorem splitOnSep_joinSep (sep : Nat) : ∀ (L : List (List Nat)), L ≠ [] →
    (∀ x ∈ L, sep ∉ x) → splitOnSep sep (joinSep sep L) = L := by
  intro L
  induction L with
  | nil => intro h; exact absurd rfl h
  | cons x t ih =>
    intro _ hall
    cases t with
    | nil =>
      show splitOnSep sep (joinSep sep [x]) = [x]
      have : joinSep sep [x] = x := rfl
      rw [this]
      exact splitOnSep_of_not_mem sep x (hall x (by simp))
    | cons y tt =>
      show splitOnSep sep (joinSep sep (x :: y :: tt)) = x :: y :: tt
      have : joinSep sep (x :: y :: tt) = x ++ sep :: joinSep sep (y :: tt) := rfl
      rw [this]
      rw [splitOnSep_append sep x _ (hall x (by simp))]
      rw [ih (by simp) (fun z hz => hall z (List.mem_cons.mpr (Or.inr hz)))]

theorem foldl_normStep_mem : ∀ (cs acc : List (List Nat)),
    (∀ x ∈ acc, x ≠ [46] ∧ x ≠ [46, 46] ∧ 47 ∉ x) →
    (∀ c ∈ cs, 47 ∉ c) →
    ∀ x ∈ cs.foldl normStep acc, x ≠ [46] ∧ x ≠ [46, 46] ∧ 47 ∉ x := by
  intro cs
  induction cs with
  | nil =>
    intro acc hacc _
    simpa using hacc
  | cons c cs ih =>
    intro acc hacc hcs
    rw [List.foldl_cons]
    apply ih
    · intro x hx
      unfold normStep at hx
      split_ifs at hx with h1 h2 h3
      · exact hacc x hx
      · exact hacc x ((List.dropLast_sublist acc).subset hx)
      · exact hacc x hx
      · rcases List.mem_append.mp hx with h4 | h4
        · exact hacc x h4
        · have hxc : x = c := by simpa using h4
          subst hxc
          exact ⟨h1, h2, hcs x (by simp)⟩
    · intro d hd
      exact hcs d (by simp [hd])

theorem foldl_normStep_id : ∀ (L acc : List (List Nat)),
    (∀ x ∈ L, x ≠ [46] ∧ x ≠ [46, 46]) → L.foldl normStep acc = acc ++ L := by
  intro L
  induction L with
  | nil => intro acc _; simp
  | cons c cs ih =>
    intro acc h
    rw [List.foldl_cons]
    have hc := h c (by simp)
    have hstep : normStep acc c = acc ++ [c] := by
      unfold normStep
      rw [if_neg hc.1, if_neg hc.2]
    rw [hstep, ih (acc ++ [c]) (fun x hx => h x (by simp [hx]))]
    simp

/-- C4: normalize_path is idempotent: applying it a second time returns
the first result unchanged, for every byte string path. -/
theorem normalize_path_idempotent (p : List Nat) :
    normalize_path (normalize_path p) = normalize_path p := by
  by_cases h46 : 46 ∈ p
  · have hout : normalize_path p = joinSep 47 ((splitOnSep 47 p).foldl normStep []) := by
      unfold normalize_path
      rw [if_pos h46]
    set L := (splitOnSep 47 p).foldl normStep [] with hL
    have hP : ∀ x ∈ L, x ≠ [46] ∧ x ≠ [46, 46] ∧ 47 ∉ x :=
      foldl_normStep_mem _ _ (by simp) (mem_splitOnSep 47 p)
    rw [hout]
    by_cases h2 : 46 ∈ joinSep 47 L
    · have hLne : L ≠ [] := by
        intro hnil
        rw [hnil] at h2
        simp [joinSep] at h2
      unfold normalize_path
      rw [if_pos h2]
      rw [splitOnSep_joinSep 47 L hLne (fun x hx => (hP x hx).2.2)]
      rw [foldl_normStep_id L [] (fun x hx => ⟨(hP x hx).1, (hP x hx).2.1⟩)]
      simp
    · unfold normalize_path
      rw [if_neg h2]
  · have hid : normalize_path p = p := by
      unfold normalize_path
      rw [if_neg h46]
    rw [hid]
    exact hid

end Httpx

namespace Httpx

theorem mem_UNRESERVED_iff (x : Nat) : x ∈ UNRESERVED_CHARS ↔
    (65 ≤ x ∧ x ≤ 90) ∨ (97 ≤ x ∧ x ≤ 122) ∨ (48 ≤ x ∧ x ≤ 57) ∨
      x = 45 ∨ x = 46 ∨ x = 95 ∨ x = 126 := by
  simp only [UNRESERVED_CHARS, List.mem_cons, List.not_mem_nil, or_false]
  omega

theorem hex_mem_unreserved (x : Nat) (h : isHexDigitByte x) : x ∈ UNRESERVED_CHARS := by
  rw [mem_UNRESERVED_iff]
  unfold isHexDigitByte at h
  omega

theorem hex_ne_pct (x : Nat) (h : isHexDigitByte x) : x ≠ 37 := by
  unfold isHexDigitByte at h
  omega

theorem isHex_hexUpDigit (n : Nat) (h : n < 16) : isHexDigitByte (hexUpDigit n) := by
  unfold hexUpDigit isHexDigitByte
  split <;> omega

theorem pctByte_hex (safe : List Nat) (x : Nat) (h : isHexDigitByte x) :
    pctByte safe x = [x] := by
  unfold pctByte
  rw [if_pos (Or.inl (hex_mem_unreserved x h))]

theorem pctByte_cases (safe : List Nat) (b : Nat) (hb : b < 256) :
    pctByte safe b = [b] ∨
      (pctByte safe b = [37, hexUpDigit (b / 16), hexUpDigit (b % 16)] ∧
        isHexDigitByte (hexUpDigit (b / 16)) ∧ isHexDigitByte (hexUpDigit (b % 16))) := by
  unfold pctByte
  split
  · left; rfl
  · right
    exact ⟨rfl, isHex_hexUpDigit _ (by omega), isHex_hexUpDigit _ (by omega)⟩

theorem quote_hexCons (safe : List Nat) (x : Nat) (r : List Nat) (h : isHexDigitByte x) :
    quote safe (x :: r) = x :: quote safe r := by
  have hx37 : x ≠ 37 := hex_ne_pct x h
  rcases r with _ | ⟨d, r1⟩
  · show pctByte safe x = x :: quote safe []
    rw [pctByte_hex safe x h]
    rfl
  rcases r1 with _ | ⟨e, r2⟩
  · show pctByte safe x ++ quote safe [d] = x :: quote safe [d]
    rw [pctByte_hex safe x h]
    rfl
  · simp only [quote]
    rw [if_neg (fun hcon => hx37 hcon.1), pctByte_hex safe x h]
    rfl

theorem quote_pctByte_append (safe : List Nat) (c : Nat) (hc : c < 256) (t : List Nat) :
    quote safe (pctByte safe c ++ t) = pctByte safe c ++ quote safe t := by
  rcases pctByte_cases safe c hc with h | ⟨h, h1, h2⟩
  · rw [h]
    by_cases hc37 : c = 37
    · subst hc37
      rcases t with _ | ⟨d, t1⟩
      · rw [List.append_nil]
        show pctByte safe 37 = [37] ++ quote safe []
        rw [h]
        rfl
      rcases t1 with _ | ⟨e, t2⟩
      · show pctByte safe 37 ++ quote safe [d] = [37] ++ quote safe [d]
        rw [h]
      · by_cases hde : isHexDigitByte d ∧ isHexDigitByte e
        · have hL : quote safe (37 :: d :: e :: t2) = 37 :: d :: e :: quote safe t2 := by
            simp only [quote]
            rw [if_pos ⟨True.intro, hde.1, hde.2⟩]
          have hR : quote safe (d :: e :: t2) = d :: e :: quote safe t2 := by
            rw [quote_hexCons safe d _ hde.1, quote_hexCons safe e _ hde.2]
          show quote safe (37 :: d :: e :: t2) = [37] ++ quote safe (d :: e :: t2)
          rw [hL, hR]
          rfl
        · show quote safe (37 :: d :: e :: t2) = [37] ++ quote safe (d :: e :: t2)
          simp only [quote]
          rw [if_neg (fun hcon => hde ⟨hcon.2.1, hcon.2.2⟩), h]
    · rcases t with _ | ⟨d, t1⟩
      · rw [List.append_nil]
        show quote safe [c] = [c] ++ quote safe []
        show pctByte safe c = [c] ++ quote safe []
        rw [h]
        rfl
      rcases t1 with _ | ⟨e, t2⟩
      · show pctByte safe c ++ quote safe [d] = [c] ++ quote safe [d]
        rw [h]
      · show quote safe (c :: d :: e :: t2) = [c] ++ quote safe (d :: e :: t2)
        simp only [quote]
        rw [if_neg (fun hcon => hc37 hcon.1), h]
  · rw [h]
    show quote safe (37 :: hexUpDigit (c / 16) :: hexUpDigit (c % 16) :: t) = _
    simp only [quote]
    rw [if_pos ⟨True.intro, h1, h2⟩]
    rfl

theorem quote_quote_aux (safe : List Nat) : ∀ (n : Nat) (s : List Nat), s.length ≤ n →
    (∀ b ∈ s, b < 256) → quote safe (quote safe s) = quote safe s := by
  intro n
  induction n with
  | zero =>
    intro s hlen _
    have hs : s = [] := List.length_eq_zero.mp (Nat.le_zero.mp hlen)
    subst hs
    rfl
  | succ n ih =>
    intro s hlen hb
    rcases s with _ | ⟨c, s1⟩
    · rfl
    rcases s1 with _ | ⟨d, s2⟩
    · have hc := hb c (by simp)
      show quote safe (pctByte safe c) = pctByte safe c
      have h := quote_pctByte_append safe c hc []
      rw [List.append_nil] at h
      rw [h]
      simp [quote]
    rcases s2 with _ | ⟨e, s3⟩
    · have hc := hb c (by simp)
      show quote safe (pctByte safe c ++ quote safe [d]) = pctByte safe c ++ quote safe [d]
      rw [quote_pctByte_append safe c hc]
      congr 1
      apply ih [d]
      · simp at hlen ⊢
        omega
      · intro b hb2
        simp at hb2
        subst hb2
        exact hb _ (by simp)
    · by_cases hcond : c = 37 ∧ isHexDigitByte d ∧ isHexDigitByte e
      · have h1 : quote safe (c :: d :: e :: s3) = 37 :: d :: e :: quote safe s3 := by
          simp only [quote]
          rw [if_pos hcond]
        rw [h1]
        have h2 : quote safe (37 :: d :: e :: quote safe s3) =
            37 :: d :: e :: quote safe (quote safe s3) := by
          simp only [quote]
          rw [if_pos ⟨True.intro, hcond.2.1, hcond.2.2⟩]
        rw [h2, ih s3 (by simp at hlen ⊢; omega)
          (fun b hb2 => hb b (by simp [hb2]))]
      · have h1 : quote safe (c :: d :: e :: s3) = pctByte safe c ++ quote safe (d :: e :: s3) := by
          simp only [quote]
          rw [if_neg hcond]
        rw [h1, quote_pctByte_append safe c (hb c (by simp))]
        rw [ih (d :: e :: s3) (by simp at hlen ⊢; omega)
          (fun b hb2 => hb b (by simp at hb2 ⊢; tauto))]

end Httpx

namespace Httpx

/-- C2 counterexample: the claimed witness cannot exist.  There is no byte
string with a stray percent byte, and no safe set, on which a second
application of quote changes the result: quote is idempotent on every byte
string, because the first pass already encodes a stray percent byte as a
valid percent triplet and the second pass copies every valid triplet and
every unreserved or safe literal unchanged. -/
theorem quote_stray_reapply_refuted :
    ¬ ∃ (s safe : List Nat), (∀ b ∈ s, b < 256) ∧ strayPercent s ∧
      quote safe (quote safe s) ≠ quote safe s := by
  rintro ⟨s, safe, hb, -, hne⟩
  exact hne (quote_quote_aux safe s.length s le_rfl hb)

/-- C2 amended: quote is idempotent on every byte string, including the
strings that contain a literal percent byte not followed by two
hexadecimal digit bytes; such a stray percent byte is encoded to the
triplet percent two five on the first pass already, and a second pass
returns the first output unchanged. -/
theorem quote_idempotent (safe s : List Nat) (hb : ∀ b ∈ s, b < 256) :
    quote safe (quote safe s) = quote safe s :=
  quote_quote_aux safe s.length s le_rfl hb

/-- Witness for the amended C2 theorem at the bytes of the string one zero
zero percent with an empty safe set. -/
theorem quote_idempotent_witness :
    (∀ b ∈ [49, 48, 48, 37], b < 256) ∧
      quote [] (quote [] [49, 48, 48, 37]) = quote [] [49, 48, 48, 37] :=
  ⟨by decide, quote_idempotent [] [49, 48, 48, 37] (by decide)⟩

/-- C1: evaluation of from_str at the bytes of the input a equals b equals
c.  The piece splits on the equals byte into three parts, so the wildcard
arm of from_str drops it silently and multi_items is empty, instead of the
single pair of key a and value b equals c required by the claim. -/
theorem from_str_drops_pair_with_two_equals :
    (from_str [97, 61, 98, 61, 99]).multi_items = [] := by decide

/-- C9: evaluation of unquote at the one byte inputs holding a double
quote byte and a single quote byte.  Both inputs start and end with the
quote byte, so the source slices from index one to length minus one, an
invalid range for a one byte string, and panics instead of returning
normally; the panic is modelled by none. -/
theorem unquote_panics_on_single_quote_byte :
    unquote [34] = none ∧ unquote [39] = none := by decide

/-- C8: validate_path returns an error exactly under one of three
conditions, each with its fixed message: an authority with a non empty
path that does not start with a slash; no scheme and no authority with a
path starting with two slashes; no scheme and no authority with a path
starting with a colon.  In every other case it returns plain success. -/
theorem validate_path_error_conditions (path : List Nat) (has_scheme has_authority : Bool) :
    (validate_path path has_scheme has_authority =
        .error "For absolute URLs, path must be empty or begin with \x27/\x27" ↔
      has_authority = true ∧ path ≠ [] ∧ ¬ startsWithBytes path [47]) ∧
    (validate_path path has_scheme has_authority =
        .error "Relative URLs cannot have a path starting with \x27//\x27" ↔
      has_scheme = false ∧ has_authority = false ∧ startsWithBytes path [47, 47]) ∧
    (validate_path path has_scheme has_authority =
        .error "Relative URLs cannot have a path starting with \x27:\x27" ↔
      has_scheme = false ∧ has_authority = false ∧ startsWithBytes path [58]) ∧
    (validate_path path has_scheme has_authority = .ok () ↔
      ¬(has_authority = true ∧ path ≠ [] ∧ ¬ startsWithBytes path [47]) ∧
      ¬(has_scheme = false ∧ has_authority = false ∧ startsWithBytes path [47, 47]) ∧
      ¬(has_scheme = false ∧ has_authority = false ∧ startsWithBytes path [58])) := by
  unfold validate_path
  split_ifs with h1 h2 h3
  · have hno2 : ¬(has_scheme = false ∧ has_authority = false ∧ startsWithBytes path [47, 47]) :=
      fun hh => absurd (h1.1.symm.trans hh.2.1) (by decide)
    have hno3 : ¬(has_scheme = false ∧ has_authority = false ∧ startsWithBytes path [58]) :=
      fun hh => absurd (h1.1.symm.trans hh.2.1) (by decide)
    refine ⟨⟨fun _ => h1, fun _ => rfl⟩, ?_, ?_, ?_⟩
    · exact ⟨fun hh => absurd (Except.error.inj hh) (by decide), fun hh => absurd hh hno2⟩
    · exact ⟨fun hh => absurd (Except.error.inj hh) (by decide), fun hh => absurd hh hno3⟩
    · exact ⟨fun hh => (nomatch hh), fun hh => absurd h1 hh.1⟩
  · have hno3 : ¬(has_scheme = false ∧ has_authority = false ∧ startsWithBytes path [58]) := by
      intro hh
      have e2 := h2.2.2
      have e3 := hh.2.2
      unfold startsWithBytes at e2 e3
      rcases path with _ | ⟨x, p⟩
      · simp at e2
      · simp at e2 e3
        omega
    refine ⟨?_, ⟨fun _ => h2, fun _ => rfl⟩, ?_, ?_⟩
    · exact ⟨fun hh => absurd (Except.error.inj hh) (by decide), fun hh => absurd hh h1⟩
    · exact ⟨fun hh => absurd (Except.error.inj hh) (by decide), fun hh => absurd hh hno3⟩
    · exact ⟨fun hh => (nomatch hh), fun hh => absurd h2 hh.2.1⟩
  · refine ⟨?_, ?_, ⟨fun _ => h3, fun _ => rfl⟩, ?_⟩
    · exact ⟨fun hh => absurd (Except.error.inj hh) (by decide), fun hh => absurd hh h1⟩
    · exact ⟨fun hh => absurd (Except.error.inj hh) (by decide), fun hh => absurd hh h2⟩
    · exact ⟨fun hh => (nomatch hh), fun hh => absurd h3 hh.2.2⟩
  · refine ⟨?_, ?_, ?_, ⟨fun _ => ⟨h1, h2, h3⟩, fun _ => rfl⟩⟩
    · exact ⟨fun hh => (nomatch hh), fun hh => absurd hh h1⟩
    · exact ⟨fun hh => (nomatch hh), fun hh => absurd hh h2⟩
    · exact ⟨fun hh => (nomatch hh), fun hh => absurd hh h3⟩

end Httpx

namespace Httpx

theorem listLeB_total : ∀ (a b : List Nat), listLeB a b = true ∨ listLeB b a = true := by
  intro a
  induction a with
  | nil => intro b; left; rfl
  | cons x xs ih =>
    intro b
    cases b with
    | nil => right; rfl
    | cons y ys =>
      by_cases h1 : x < y
      · left; simp [listLeB, h1]
      · by_cases h2 : y < x
        · right; simp [listLeB, h2]
        · have hxy : x = y := by omega
          subst hxy
          rcases ih ys with h | h
          · left; simp [listLeB, h]
          · right; simp [listLeB, h]

theorem listLeB_antisymm : ∀ (a b : List Nat),
    listLeB a b = true → listLeB b a = true → a = b := by
  intro a
  induction a with
  | nil =>
    intro b h1 h2
    cases b with
    | nil => rfl
    | cons y ys => simp [listLeB] at h2
  | cons x xs ih =>
    intro b h1 h2
    cases b with
    | nil => simp [listLeB] at h1
    | cons y ys =>
      by_cases hxy : x < y
      · exfalso
        have hfalse : listLeB (y :: ys) (x :: xs) = false := by
          simp only [listLeB]
          rw [if_neg (by omega : ¬ y < x), if_pos hxy]
        rw [hfalse] at h2
        exact absurd h2 (by simp)
      · by_cases hyx : y < x
        · exfalso
          have hfalse : listLeB (x :: xs) (y :: ys) = false := by
            simp only [listLeB]
            rw [if_neg hxy, if_pos hyx]
          rw [hfalse] at h1
          exact absurd h1 (by simp)
        · have hxy2 : x = y := by omega
          subst hxy2
          simp [listLeB] at h1 h2
          rw [ih ys h1 h2]

theorem listLeB_trans : ∀ (a b c : List Nat),
    listLeB a b = true → listLeB b c = true → listLeB a c = true := by
  intro a
  induction a with
  | nil => intro b c _ _; rfl
  | cons x xs ih =>
    intro b c h1 h2
    cases b with
    | nil => simp [listLeB] at h1
    | cons y ys =>
      cases c with
      | nil => simp [listLeB] at h2
      | cons z zs =>
        simp only [listLeB] at h1 h2 ⊢
        by_cases hxy : x < y
        · by_cases hyz : y < z
          · rw [if_pos (by omega : x < z)]
          · by_cases hzy : z < y
            · rw [if_neg hyz, if_pos hzy] at h2
              exact absurd h2 (by simp)
            · rw [if_pos (by omega : x < z)]
        · by_cases hyx : y < x
          · rw [if_neg hxy, if_pos hyx] at h1
            exact absurd h1 (by simp)
          · have hxy2 : x = y := by omega
            subst hxy2
            by_cases hxz : x < z
            · rw [if_pos hxz]
            · by_cases hzx : z < x
              · rw [if_neg hxz, if_pos hzx] at h2
                exact absurd h2 (by simp)
              · rw [if_neg hxz, if_neg hzx] at h2 ⊢
                rw [if_neg (by omega : ¬ x < x), if_neg (by omega : ¬ x < x)] at h1
                exact ih ys zs h1 h2

theorem pairLeB_total (p q : List Nat × List Nat) :
    pairLeB p q = true ∨ pairLeB q p = true := by
  unfold pairLeB
  by_cases h : p.1 = q.1
  · rw [if_pos h, if_pos h.symm]
    exact listLeB_total p.2 q.2
  · rw [if_neg h, if_neg (fun hh => h hh.symm)]
    exact listLeB_total p.1 q.1

theorem pairLeB_antisymm (p q : List Nat × List Nat)
    (h1 : pairLeB p q = true) (h2 : pairLeB q p = true) : p = q := by
  unfold pairLeB at h1 h2
  by_cases h : p.1 = q.1
  · rw [if_pos h] at h1
    rw [if_pos h.symm] at h2
    exact Prod.ext h (listLeB_antisymm _ _ h1 h2)
  · rw [if_neg h] at h1
    rw [if_neg (fun hh => h hh.symm)] at h2
    exact absurd (listLeB_antisymm _ _ h1 h2) h

theorem pairLeB_trans (p q r : List Nat × List Nat)
    (h1 : pairLeB p q = true) (h2 : pairLeB q r = true) : pairLeB p r = true := by
  unfold pairLeB at h1 h2 ⊢
  by_cases hpq : p.1 = q.1
  · by_cases hqr : q.1 = r.1
    · rw [if_pos (hpq.trans hqr)]
      rw [if_pos hpq] at h1
      rw [if_pos hqr] at h2
      exact listLeB_trans _ _ _ h1 h2
    · rw [if_neg (fun hh => hqr (hpq.symm.trans hh))]
      rw [if_neg hqr] at h2
      rw [hpq]
      exact h2
  · by_cases hqr : q.1 = r.1
    · rw [if_neg (fun hh => hpq (hh.trans hqr.symm))]
      rw [if_neg hpq] at h1
      rw [← hqr]
      exact h1
    · rw [if_neg hpq] at h1
      rw [if_neg hqr] at h2
      by_cases hpr : p.1 = r.1
      · exfalso
        rw [← hpr] at h2
        exact hpq (listLeB_antisymm _ _ h1 h2)
      · rw [if_neg hpr]
        exact listLeB_trans _ _ _ h1 h2

theorem sortPairs_eq_iff_perm (l1 l2 : List (List Nat × List Nat)) :
    sortPairs l1 = sortPairs l2 ↔ l1.Perm l2 := by
  haveI : IsTotal (List Nat × List Nat) PairLe := ⟨fun p q => pairLeB_total p q⟩
  haveI : IsTrans (List Nat × List Nat) PairLe := ⟨fun p q r => pairLeB_trans p q r⟩
  haveI : IsAntisymm (List Nat × List Nat) PairLe := ⟨fun p q => pairLeB_antisymm p q⟩
  constructor
  · intro h
    have h1 : l1.Perm (sortPairs l1) := (List.perm_insertionSort PairLe l1).symm
    rw [h] at h1
    exact h1.trans (List.perm_insertionSort PairLe l2)
  · intro h
    exact List.eq_of_perm_of_sorted
      (((List.perm_insertionSort PairLe l1).trans h).trans
        (List.perm_insertionSort PairLe l2).symm)
      (List.sorted_insertionSort PairLe l1)
      (List.sorted_insertionSort PairLe l2)

theorem qeq_iff_perm (a b : QueryParams) :
    QueryParams.eq a b = true ↔ a.multi_items.Perm b.multi_items := by
  unfold QueryParams.eq
  rw [decide_eq_true_eq]
  exact sortPairs_eq_iff_perm _ _

/-- C5: the equality test of QueryParams holds exactly when the flattened
multi item lists of the two instances agree as unordered multisets, so
equality ignores key order and value list order across distinct keys. -/
theorem queryparams_eq_iff_multiset (a b : QueryParams) :
    QueryParams.eq a b = true ↔
      ((a.multi_items : Multiset (List Nat × List Nat)) =
        (b.multi_items : Multiset (List Nat × List Nat))) := by
  rw [qeq_iff_perm]
  exact Multiset.coe_eq_coe.symm

/-- C3: the two instances built from the pair lists a one b two and b two
a one are equal under the equality test, yet their canonical string
renderings, the sole input of the hash, differ, so equal values can hash
unequally. -/
theorem queryparams_eq_but_render_differs :
    QueryParams.eq (fromPairs [([97], [49]), ([98], [50])])
        (fromPairs [([98], [50]), ([97], [49])]) = true ∧
      (fromPairs [([97], [49]), ([98], [50])]).render ≠
        (fromPairs [([98], [50]), ([97], [49])]).render := by decide

/-- C10: a QueryParams built from a mapping that binds one key to an empty
sequence keeps the key with an empty value list: membership, length and
keys report the key, while multi items, items, values and the rendering
omit it, and the instance is equal under the equality test to the empty
QueryParams even though membership and length differ. -/
theorem from_pydict_empty_seq_key (k : List Nat) :
    QueryParams.hasKey (from_pydict [(k, .seqVal [])]) k = true ∧
    (from_pydict [(k, .seqVal [])]).length = 1 ∧
    (from_pydict [(k, .seqVal [])]).keys = [k] ∧
    (from_pydict [(k, .seqVal [])]).multi_items = [] ∧
    (from_pydict [(k, .seqVal [])]).items = [] ∧
    (from_pydict [(k, .seqVal [])]).values = [] ∧
    (from_pydict [(k, .seqVal [])]).render = [] ∧
    QueryParams.eq (from_pydict [(k, .seqVal [])]) emptyParams = true ∧
    QueryParams.hasKey emptyParams k = false ∧
    emptyParams.length = 0 := by
  have hq : from_pydict [(k, PyDictValue.seqVal [])] = ⟨[(k, [])]⟩ := by
    unfold from_pydict
    simp [mapInsert]
  rw [hq]
  refine ⟨?_, rfl, rfl, rfl, rfl, rfl, rfl, rfl, rfl, rfl⟩
  unfold QueryParams.hasKey lookupEntry
  simp

end Httpx

namespace Httpx

theorem lookupEntry_cons (k0 : List Nat) (vs : List (List Nat))
    (t : List (List Nat × List (List Nat))) (k : List Nat) :
    lookupEntry ((k0, vs) :: t) k = if k0 = k then some vs else lookupEntry t k := rfl

theorem mapInsert_keys : ∀ (m : List (List Nat × List (List Nat))) (k : List Nat)
    (v : List (List Nat)),
    (mapInsert m k v).map Prod.fst =
      if k ∈ m.map Prod.fst then m.map Prod.fst else m.map Prod.fst ++ [k] := by
  intro m k v
  induction m with
  | nil => simp [mapInsert]
  | cons e t ih =>
    obtain ⟨k0, vs⟩ := e
    unfold mapInsert
    by_cases h : k0 = k
    · subst h
      rw [if_pos rfl]
      simp
    · rw [if_neg h]
      simp only [List.map_cons]
      rw [ih]
      by_cases hk : k ∈ t.map Prod.fst
      · rw [if_pos hk, if_pos (by simp [hk])]
      · rw [if_neg hk, if_neg (by
          intro hh
          rcases List.mem_cons.mp hh with h2 | h2
          · exact h h2.symm
          · exact hk h2)]
        simp

theorem lookupEntry_mapInsert_self : ∀ (m : List (List Nat × List (List Nat)))
    (k : List Nat) (v : List (List Nat)),
    lookupEntry (mapInsert m k v) k = some v := by
  intro m k v
  induction m with
  | nil => simp [mapInsert, lookupEntry]
  | cons e t ih =>
    obtain ⟨k0, vs⟩ := e
    unfold mapInsert
    by_cases h : k0 = k
    · subst h
      rw [if_pos rfl]
      unfold lookupEntry
      rw [if_pos rfl]
    · rw [if_neg h]
      unfold lookupEntry
      rw [if_neg h]
      exact ih

theorem lookupEntry_mapInsert_other : ∀ (m : List (List Nat × List (List Nat)))
    (k : List Nat) (v : List (List Nat)) (k2 : List Nat), k2 ≠ k →
    lookupEntry (mapInsert m k v) k2 = lookupEntry m k2 := by
  intro m k v k2 hne
  induction m with
  | nil =>
    show lookupEntry [(k, v)] k2 = lookupEntry [] k2
    unfold lookupEntry
    rw [if_neg (fun hh => hne hh.symm)]
    rfl
  | cons e t ih =>
    obtain ⟨k0, vs⟩ := e
    unfold mapInsert
    by_cases h : k0 = k
    · subst h
      rw [if_pos rfl]
      unfold lookupEntry
      rw [if_neg (fun hh => hne hh.symm), if_neg (fun hh => hne hh.symm)]
    · rw [if_neg h]
      unfold lookupEntry
      by_cases h2 : k0 = k2
      · rw [if_pos h2, if_pos h2]
      · rw [if_neg h2, if_neg h2]
        exact ih

theorem merge_foldl_keys : ∀ (ol m : List (List Nat × List (List Nat))),
    (ol.map Prod.fst).Nodup →
    ((ol.foldl (fun acc kv => mapInsert acc kv.1 kv.2) m).map Prod.fst) =
      m.map Prod.fst ++
        (ol.map Prod.fst).filter (fun k => decide (k ∉ m.map Prod.fst)) := by
  intro ol
  induction ol with
  | nil => intro m _; simp
  | cons e rest ih =>
    intro m hnd
    obtain ⟨k, v⟩ := e
    simp only [List.map_cons, List.nodup_cons] at hnd
    obtain ⟨hknotin, hndrest⟩ := hnd
    rw [List.foldl_cons, ih (mapInsert m k v) hndrest, mapInsert_keys]
    simp only [List.map_cons, List.filter_cons]
    by_cases hk : k ∈ m.map Prod.fst
    · rw [if_pos hk]
      have hdec : decide (k ∉ m.map Prod.fst) = false := by simp [hk]
      rw [hdec]
      simp
    · rw [if_neg hk]
      have hdec : decide (k ∉ m.map Prod.fst) = true := by simp [hk]
      rw [hdec]
      have hfeq : (rest.map Prod.fst).filter
            (fun k2 => decide (k2 ∉ (m.map Prod.fst ++ [k]))) =
          (rest.map Prod.fst).filter (fun k2 => decide (k2 ∉ m.map Prod.fst)) := by
        apply List.filter_congr
        intro x hx
        have hxk : x ≠ k := fun hh => hknotin (hh ▸ hx)
        rw [decide_eq_decide]
        simp [hxk]
      rw [hfeq]
      simp

theorem merge_foldl_lookup : ∀ (ol m : List (List Nat × List (List Nat))),
    (ol.map Prod.fst).Nodup → ∀ (k2 : List Nat),
    lookupEntry (ol.foldl (fun acc kv => mapInsert acc kv.1 kv.2) m) k2 =
      if k2 ∈ ol.map Prod.fst then lookupEntry ol k2 else lookupEntry m k2 := by
  intro ol
  induction ol with
  | nil => intro m _ k2; simp [lookupEntry]
  | cons e rest ih =>
    intro m hnd k2
    obtain ⟨k, v⟩ := e
    simp only [List.map_cons, List.nodup_cons] at hnd
    obtain ⟨hknotin, hndrest⟩ := hnd
    rw [List.foldl_cons, ih (mapInsert m k v) hndrest k2]
    simp only [List.map_cons, List.mem_cons]
    by_cases hk2 : k2 = k
    · subst hk2
      rw [if_neg hknotin, if_pos (Or.inl rfl), lookupEntry_mapInsert_self]
      unfold lookupEntry
      rw [if_pos rfl]
    · by_cases hin : k2 ∈ rest.map Prod.fst
      · rw [if_pos hin, if_pos (Or.inr hin)]
        rw [lookupEntry_cons, if_neg (fun hh => hk2 hh.symm)]
      · rw [if_neg hin, if_neg (by
          rintro (hh | hh)
          · exact hk2 hh
          · exact hin hh)]
        exact lookupEntry_mapInsert_other m k v k2 hk2

/-- C7: merge replaces, for every key present in the other map, the whole
value list of that key by the list of the other map, keeping the position
of a key that already existed in the receiver, appends the keys of the
other map that are new at the end in their order, and leaves the value
lists of all remaining keys unchanged; it never concatenates value
lists. -/
theorem queryparams_merge_spec (s o : QueryParams)
    (hs : s.keys.Nodup) (ho : o.keys.Nodup) :
    (s.merge o).keys = s.keys ++ o.keys.filter (fun k => decide (k ∉ s.keys)) ∧
    ∀ k, (s.merge o).get_list k =
      if k ∈ o.keys then o.get_list k else s.get_list k := by
  constructor
  · simp only [QueryParams.merge, QueryParams.keys]
    exact merge_foldl_keys o.params s.params ho
  · intro k
    simp only [QueryParams.merge, QueryParams.get_list, QueryParams.keys]
    rw [merge_foldl_lookup o.params s.params ho k]
    by_cases h : k ∈ o.params.map Prod.fst
    · rw [if_pos h, if_pos h]
    · rw [if_neg h, if_neg h]

/-- Witness for the C7 theorem at the merge of the map with key a value
one and key b value two with the map with key a value nine, the example of
the specification. -/
theorem queryparams_merge_spec_witness :
    (QueryParams.mk [([97], [[49]]), ([98], [[50]])]).keys.Nodup ∧
    (QueryParams.mk [([97], [[57]])]).keys.Nodup ∧
    (((QueryParams.mk [([97], [[49]]), ([98], [[50]])]).merge
        (QueryParams.mk [([97], [[57]])])).keys =
      (QueryParams.mk [([97], [[49]]), ([98], [[50]])]).keys ++
        (QueryParams.mk [([97], [[57]])]).keys.filter
          (fun k => decide (k ∉ (QueryParams.mk [([97], [[49]]), ([98], [[50]])]).keys)) ∧
    ∀ k, ((QueryParams.mk [([97], [[49]]), ([98], [[50]])]).merge
        (QueryParams.mk [([97], [[57]])])).get_list k =
      if k ∈ (QueryParams.mk [([97], [[57]])]).keys
        then (QueryParams.mk [([97], [[57]])]).get_list k
        else (QueryParams.mk [([97], [[49]]), ([98], [[50]])]).get_list k) :=
  ⟨by decide, by decide,
    queryparams_merge_spec (QueryParams.mk [([97], [[49]]), ([98], [[50]])])
      (QueryParams.mk [([97], [[57]])]) (by decide) (by decide)⟩

end Httpx

namespace Httpx

theorem flatItems_entryPush : ∀ (m : List (List Nat × List (List Nat))) (k v : List Nat),
    (flatItems (entryPush m k v)).Perm (flatItems m ++ [(k, v)]) := by
  intro m k v
  induction m with
  | nil =>
    show (flatItems [(k, [v])]).Perm (flatItems [] ++ [(k, v)])
    simp [flatItems]
  | cons e t ih =>
    obtain ⟨k0, vs⟩ := e
    unfold entryPush
    by_cases h : k0 = k
    · subst h
      rw [if_pos rfl]
      simp only [flatItems, List.map_cons, List.flatten_cons, List.map_append]
      rw [List.append_assoc, List.append_assoc]
      exact List.Perm.append_left _ (List.perm_append_comm)
    · rw [if_neg h]
      simp only [flatItems, List.map_cons, List.flatten_cons]
      rw [List.append_assoc]
      exact List.Perm.append_left _ ih

theorem flatItems_foldl_entryPush : ∀ (ps : List (List Nat × List Nat))
    (m : List (List Nat × List (List Nat))),
    (flatItems (ps.foldl (fun m kv => entryPush m kv.1 kv.2) m)).Perm (flatItems m ++ ps) := by
  intro ps
  induction ps with
  | nil =>
    intro m
    simp
  | cons kv ps ih =>
    intro m
    rw [List.foldl_cons]
    refine (ih (entryPush m kv.1 kv.2)).trans ?_
    refine (List.Perm.append_right ps (flatItems_entryPush m kv.1 kv.2)).trans ?_
    rw [List.append_assoc]
    exact List.Perm.refl _

theorem multi_items_fromPairs_perm (ps : List (List Nat × List Nat)) :
    (fromPairs ps).multi_items.Perm ps := by
  have h := flatItems_foldl_entryPush ps []
  simpa [fromPairs, QueryParams.multi_items, flatItems] using h

theorem urlencodeByte_formSafe (b : Nat) (h : formSafeByte b) : urlencodeByte b = [b] := by
  unfold formSafeByte at h
  unfold urlencodeByte
  rw [if_pos h]

theorem urlencode_formSafe : ∀ (s : List Nat), (∀ b ∈ s, formSafeByte b) →
    urlencode s = s := by
  intro s
  induction s with
  | nil => intro _; rfl
  | cons c t ih =>
    intro h
    unfold urlencode
    simp only [List.map_cons, List.flatten_cons]
    rw [urlencodeByte_formSafe c (h c (by simp))]
    have ht := ih (fun b hb => h b (by simp [hb]))
    unfold urlencode at ht
    rw [ht]
    rfl

theorem formSafe_ne_sep (b : Nat) (h : formSafeByte b) : b ≠ 38 ∧ b ≠ 61 := by
  unfold formSafeByte at h
  omega

theorem foldl_congr_mem {α β : Type} : ∀ (l : List α) (f g : β → α → β) (a : β),
    (∀ (b : β), ∀ x ∈ l, f b x = g b x) → l.foldl f a = l.foldl g a := by
  intro l
  induction l with
  | nil => intro f g a _; rfl
  | cons x t ih =>
    intro f g a h
    rw [List.foldl_cons, List.foldl_cons, h a x (by simp)]
    exact ih f g _ (fun b y hy => h b y (by simp [hy]))

theorem from_str_of_renders (I : List (List Nat × List Nat)) (hne : I ≠ [])
    (hI : ∀ kv ∈ I, (∀ b ∈ kv.1, formSafeByte b) ∧ (∀ b ∈ kv.2, formSafeByte b)) :
    from_str (joinSep 38 (I.map (fun kv => kv.1 ++ 61 :: kv.2))) = fromPairs I := by
  set pieces := I.map (fun kv => kv.1 ++ 61 :: kv.2) with hpieces
  have hpne : pieces ≠ [] := by
    rw [hpieces]
    intro hcon
    exact hne (List.map_eq_nil_iff.mp hcon)
  have hsne : joinSep 38 pieces ≠ [] := by
    rcases I with _ | ⟨kv, I2⟩
    · exact absurd rfl hne
    · rw [hpieces]
      simp only [List.map_cons]
      rcases I2 with _ | ⟨kv2, I3⟩
      · show joinSep 38 [kv.1 ++ 61 :: kv.2] ≠ []
        show kv.1 ++ 61 :: kv.2 ≠ []
        simp
      · show (kv.1 ++ 61 :: kv.2) ++
          38 :: joinSep 38 ((kv2.1 ++ 61 :: kv2.2) :: I3.map (fun kv => kv.1 ++ 61 :: kv.2)) ≠ []
        simp
  have h38 : ∀ p ∈ pieces, (38 : Nat) ∉ p := by
    intro p hp
    rw [hpieces] at hp
    obtain ⟨kv, hkv, rfl⟩ := List.mem_map.mp hp
    intro hmem
    rcases List.mem_append.mp hmem with h1 | h1
    · exact (formSafe_ne_sep 38 ((hI kv hkv).1 38 h1)).1 rfl
    · rcases List.mem_cons.mp h1 with h2 | h2
      · exact absurd h2 (by decide)
      · exact (formSafe_ne_sep 38 ((hI kv hkv).2 38 h2)).1 rfl
  unfold from_str
  rw [if_neg hsne, splitOnSep_joinSep 38 pieces hpne h38]
  unfold fromPairs
  congr 1
  rw [hpieces, List.foldl_map]
  apply foldl_congr_mem
  intro m kv hkv
  have h61k : (61 : Nat) ∉ kv.1 :=
    fun hh => (formSafe_ne_sep 61 ((hI kv hkv).1 61 hh)).2 rfl
  have h61v : (61 : Nat) ∉ kv.2 :=
    fun hh => (formSafe_ne_sep 61 ((hI kv hkv).2 61 hh)).2 rfl
  rw [splitOnSep_append 61 kv.1 kv.2 h61k, splitOnSep_of_not_mem 61 kv.2 h61v]

/-- C6: building a QueryParams from any pair sequence whose keys and
values hold only bytes that the web form encoder keeps unchanged, then
parsing its string rendering back, yields an instance equal to the
original under the multiset equality rule. -/
theorem queryparams_roundtrip (ps : List (List Nat × List Nat))
    (h : ∀ kv ∈ ps, (∀ b ∈ kv.1, formSafeByte b) ∧ (∀ b ∈ kv.2, formSafeByte b)) :
    QueryParams.eq (from_str ((fromPairs ps).render)) (fromPairs ps) = true := by
  have hperm : (fromPairs ps).multi_items.Perm ps := multi_items_fromPairs_perm ps
  have hIok : ∀ kv ∈ (fromPairs ps).multi_items,
      (∀ b ∈ kv.1, formSafeByte b) ∧ (∀ b ∈ kv.2, formSafeByte b) :=
    fun kv hkv => h kv (hperm.mem_iff.mp hkv)
  have hrender : (fromPairs ps).render =
      joinSep 38 ((fromPairs ps).multi_items.map (fun kv => kv.1 ++ 61 :: kv.2)) := by
    unfold QueryParams.render
    congr 1
    apply List.map_congr_left
    intro kv hkv
    rw [urlencode_formSafe kv.1 (hIok kv hkv).1, urlencode_formSafe kv.2 (hIok kv hkv).2]
  by_cases hI0 : (fromPairs ps).multi_items = []
  · have hps : ps = [] := by
      rw [hI0] at hperm
      exact hperm.symm.eq_nil
    subst hps
    decide
  · rw [hrender, from_str_of_renders _ hI0 hIok, qeq_iff_perm]
    exact multi_items_fromPairs_perm _

/-- Witness for the C6 theorem at the single pair with key byte a and
value byte b. -/
theorem queryparams_roundtrip_witness :
    (∀ kv ∈ [(([97], [98]) : List Nat × List Nat)],
      (∀ b ∈ kv.1, formSafeByte b) ∧ (∀ b ∈ kv.2, formSafeByte b)) ∧
    QueryParams.eq (from_str ((fromPairs [([97], [98])]).render))
      (fromPairs [([97], [98])]) = true :=
  ⟨by decide, queryparams_roundtrip [([97], [98])] (by decide)⟩

end Httpx
